import Mathlib

/-!
# Verification development for `src/plot/visualize.py`

A shallow embedding of the plotting pipeline: loading/cleaning of the input
tables (`read_csv_clean`), per-trial series extraction (`per_trial_xy`),
the shared-limit computation (`compute_global_limits`) and the set of
points handed to the drawing backend by `plot_single_method`
(`plottedPoints` / `renderedPoints`).

Floating-point cell values are modelled by `EFloat`: either NaN, one of the
two infinities, or a finite value represented by a rational number.  The
comparison, subtraction, addition and mean operations follow IEEE-754
semantics on this fragment (any comparison involving NaN is false,
`inf - inf = NaN`, `inf + (-inf) = NaN`, and so on).
-/

namespace Visualize

/-- A double value as produced by `pd.to_numeric` / float arithmetic:
NaN, negative infinity, a finite value, or positive infinity. -/
inductive EFloat where
  | nan
  | ninf
  | fin (q : ℚ)
  | inf
deriving DecidableEq, Repr, Inhabited

namespace EFloat

/-- IEEE strict less-than: every comparison with NaN is false. -/
def lt : EFloat → EFloat → Bool
  | .nan, _ => false
  | _, .nan => false
  | .ninf, .ninf => false
  | .ninf, .fin _ => true
  | .ninf, .inf => true
  | .fin _, .ninf => false
  | .fin a, .fin b => decide (a < b)
  | .fin _, .inf => true
  | .inf, _ => false

/-- Is this value NaN? -/
def isNan : EFloat → Bool
  | .nan => true
  | _ => false

/-- `np.isfinite`: true exactly on finite values. -/
def isFinite : EFloat → Bool
  | .fin _ => true
  | _ => false

/-- IEEE non-strict less-or-equal (false whenever NaN is involved). -/
def le (a b : EFloat) : Bool := !a.isNan && !b.isNan && !lt b a

/-- IEEE equality test `a == b` (NaN compares unequal to everything). -/
def feq : EFloat → EFloat → Bool
  | .nan, _ => false
  | _, .nan => false
  | .ninf, .ninf => true
  | .fin a, .fin b => decide (a = b)
  | .inf, .inf => true
  | _, _ => false

/-- IEEE subtraction on this fragment. -/
def sub : EFloat → EFloat → EFloat
  | .nan, _ => .nan
  | _, .nan => .nan
  | .fin a, .fin b => .fin (a - b)
  | .fin _, .inf => .ninf
  | .fin _, .ninf => .inf
  | .inf, .inf => .nan
  | .inf, _ => .inf
  | .ninf, .ninf => .nan
  | .ninf, _ => .ninf

/-- IEEE addition on this fragment. -/
def add : EFloat → EFloat → EFloat
  | .nan, _ => .nan
  | _, .nan => .nan
  | .fin a, .fin b => .fin (a + b)
  | .fin _, .inf => .inf
  | .fin _, .ninf => .ninf
  | .inf, .ninf => .nan
  | .inf, _ => .inf
  | .ninf, .inf => .nan
  | .ninf, _ => .ninf

/-- Division of a float by a positive integer count (used for row means). -/
def divNat (v : EFloat) (n : ℕ) : EFloat :=
  match v with
  | .nan => .nan
  | .ninf => .ninf
  | .fin q => .fin (q / n)
  | .inf => .inf

end EFloat

/-- One raw cell of an input table: either an entry that fails numeric
coercion (a non-numeric string or a missing value — `pd.to_numeric(...,
errors="coerce")` turns it into NaN), or an entry that coerces to the
float `v`. -/
inductive Cell where
  | na
  | num (v : EFloat)
deriving DecidableEq, Repr, Inhabited

/-- `pd.to_numeric(c, errors="coerce")` on a single cell. -/
def Cell.toNumeric : Cell → EFloat
  | .na => .nan
  | .num v => v

/-- A loaded table: the header row and the data rows (cells in header
order).  Models a `pandas.DataFrame` as produced by `pd.read_csv`. -/
structure DataFrame where
  header : List String
  rows : List (List Cell)
deriving DecidableEq, Repr

/-- Column access `df[name]`: the cell of each row at the header position
of `name` (rows too short yield a missing cell). -/
def getCol (df : DataFrame) (name : String) : List Cell :=
  df.rows.map (fun r => r.getD (df.header.indexOf name) .na)

/-- The numeric key of a row at column position `idx` — the value of
`pd.to_numeric(df["NoOfEvals"], errors="coerce")` for that row. -/
def keyOf (idx : ℕ) (r : List Cell) : EFloat := (r.getD idx .na).toNumeric

/-- `df["NoOfEvals"] = pd.to_numeric(df["NoOfEvals"], errors="coerce")`
applied to one row: the key cell is replaced by its coerced value. -/
def coerceKey (idx : ℕ) (r : List Cell) : List Cell :=
  r.set idx (.num (keyOf idx r))

/-- One step of the stable ascending sort by key (`df.sort_values`):
insert `r` before the first element with a strictly greater key, hence
after all elements with an equal key — preserving input order on ties. -/
def insertRow (key : α → EFloat) (r : α) : List α → List α
  | [] => [r]
  | s :: rest =>
      if EFloat.lt (key s) (key r) then s :: insertRow key r rest
      else r :: s :: rest

/-- Stable ascending sort by key, modelling
`df.sort_values("NoOfEvals")`. -/
def sortRows (key : α → EFloat) : List α → List α
  | [] => []
  | r :: rest => insertRow key r (sortRows key rest)

/-- `df.drop_duplicates(subset=["NoOfEvals"], keep="last")`: a row is kept
exactly when no later row has an equal key. -/
def dedupKeepLast (key : α → EFloat) : List α → List α
  | [] => []
  | r :: rest =>
      if rest.any (fun s => EFloat.feq (key r) (key s)) then dedupKeepLast key rest
      else r :: dedupKeepLast key rest

/-- Python's `repr(list_of_strings)`, as interpolated into the error
message of `read_csv_clean`. -/
def pyListRepr (l : List String) : String :=
  "[" ++ String.intercalate ", " (l.map (fun s => "\x27" ++ s ++ "\x27")) ++ "]"

/-- The message of the `ValueError` raised by `read_csv_clean` when the
required column is missing. -/
def missingColMsg (path : String) (header : List String) : String :=
  path ++ " must include a \x27NoOfEvals\x27 column. Found columns: " ++ pyListRepr header

/-- The row transformation of `read_csv_clean` once validation passed:
coerce the key column to numeric, drop the rows where coercion failed
(`dropna`), sort ascending by evaluation count, deduplicate keeping the
last occurrence, and reset the index (implicit in the list
representation). -/
def cleanRows (idx : ℕ) (rows : List (List Cell)) : List (List Cell) :=
  dedupKeepLast (keyOf idx)
    (sortRows (keyOf idx)
      ((rows.map (coerceKey idx)).filter (fun r => !(keyOf idx r).isNan)))

/-- `read_csv_clean`: validate the presence of the `NoOfEvals` column and
apply the cleaning row transformation. -/
def read_csv_clean (path : String) (df : DataFrame) : Except String DataFrame :=
  if "NoOfEvals" ∈ df.header then
    .ok ⟨df.header, cleanRows (df.header.indexOf "NoOfEvals") df.rows⟩
  else
    .error (missingColMsg path df.header)

/-- `main`'s loading loop `[(label, read_csv_clean(f)) for ...]`: clean
every input file in order, aborting the whole run on the first validation
error. -/
def loadDatasets : List (String × String × DataFrame) →
    Except String (List (String × DataFrame))
  | [] => .ok []
  | e :: rest => do
      let d ← read_csv_clean e.2.1 e.2.2
      let ds ← loadDatasets rest
      pure ((e.1, d) :: ds)

/-- `trial_columns`: every column other than `NoOfEvals`. -/
def trial_columns (df : DataFrame) : List String :=
  df.header.filter (fun c => c ≠ "NoOfEvals")

/-- `per_trial_xy`: coerce the trial column to numeric, drop the positions
where coercion failed (a row-level mask), and derive x either as a dense
0-based index, or as the evaluation counts at the retained positions,
optionally rebased so the first retained value becomes 0. -/
def per_trial_xy (df : DataFrame) (col : String) (rebase useIndex : Bool) :
    List EFloat × List EFloat :=
  let ys := (getCol df col).map Cell.toNumeric
  let ks := (getCol df "NoOfEvals").map Cell.toNumeric
  let pairs := (ks.zip ys).filter (fun p => !p.2.isNan)
  let y := pairs.map (fun p => p.2)
  let x :=
    if useIndex then (List.range y.length).map (fun (n : ℕ) => EFloat.fin (n : ℚ))
    else
      let xs := pairs.map (fun p => p.1)
      if rebase then
        match xs with
        | [] => ([] : List EFloat)
        | h :: _ => xs.map (fun v => v.sub h)
      else xs
  (x, y)

/-- `DataFrame.mean(axis=1, skipna=True)` on one row: NaN when every
entry is missing, otherwise the sum of the non-NaN entries divided by
their count. -/
def rowMean (vs : List EFloat) : EFloat :=
  let fs := vs.filter (fun v => !v.isNan)
  match fs with
  | [] => .nan
  | _ => (fs.foldl EFloat.add (.fin 0)).divNat fs.length

/-- The mean series of a table (used both by the limit computer in
mean-only mode and by the renderer when the mean curve is drawn): y is the
per-row mean over the numeric-coerced trial columns; x is either
`np.arange(len(mean))` or the raw evaluation-count column. -/
def meanXY (df : DataFrame) (useIndex : Bool) : List EFloat × List EFloat :=
  let cols := trial_columns df
  let means := df.rows.map
    (fun r => rowMean (cols.map (fun c => (r.getD (df.header.indexOf c) .na).toNumeric)))
  if useIndex then ((List.range means.length).map (fun (n : ℕ) => EFloat.fin (n : ℚ)), means)
  else ((getCol df "NoOfEvals").map Cell.toNumeric, means)

/-- Python's binary `min` on floats: returns the second argument exactly
when it compares strictly smaller. -/
def pymin (a b : EFloat) : EFloat := if EFloat.lt b a then b else a

/-- Python's binary `max` on floats: returns the second argument exactly
when it compares strictly greater. -/
def pymax (a b : EFloat) : EFloat := if EFloat.lt a b then b else a

/-- `np.nanmin`: minimum over the non-NaN entries, NaN when there are
none. -/
def nanmin (l : List EFloat) : EFloat :=
  match l.filter (fun v => !v.isNan) with
  | [] => .nan
  | h :: t => t.foldl pymin h

/-- `np.nanmax`: maximum over the non-NaN entries, NaN when there are
none. -/
def nanmax (l : List EFloat) : EFloat :=
  match l.filter (fun v => !v.isNan) with
  | [] => .nan
  | h :: t => t.foldl pymax h

/-- The shared limits `(xmin, xmax, ymin, ymax)`. -/
structure Limits where
  xmin : EFloat
  xmax : EFloat
  ymin : EFloat
  ymax : EFloat
deriving DecidableEq, Repr

/-- Fold one x-series into the running x-limits (`compute_global_limits`,
guarded by `len(x) > 0`). -/
def foldX (a b : EFloat) (x : List EFloat) : EFloat × EFloat :=
  if 0 < x.length then (pymin a (nanmin x), pymax b (nanmax x)) else (a, b)

/-- Fold one y-series into the running y-limits: under log scale only the
strictly positive entries are used (and nothing is folded when there is no
positive entry); under linear scale `nanmin`/`nanmax` of the whole series
are used (guarded by `len(y) > 0`). -/
def foldY (logy : Bool) (a b : EFloat) (y : List EFloat) : EFloat × EFloat :=
  if 0 < y.length then
    if logy then
      if 0 < (y.filter (fun v => EFloat.lt (.fin 0) v)).length then
        (pymin a (nanmin (y.filter (fun v => EFloat.lt (.fin 0) v))),
         pymax b (nanmax (y.filter (fun v => EFloat.lt (.fin 0) v))))
      else (a, b)
    else (pymin a (nanmin y), pymax b (nanmax y))
  else (a, b)

/-- Fold one (x, y) series into the running limits. -/
def updateXY (logy : Bool) (st : Limits) (x y : List EFloat) : Limits :=
  ⟨(foldX st.xmin st.xmax x).1, (foldX st.xmin st.xmax x).2,
   (foldY logy st.ymin st.ymax y).1, (foldY logy st.ymin st.ymax y).2⟩

/-- The body of `compute_global_limits`'s loop for one `(label, df)`
dataset: tables with no trial columns contribute nothing; in mean-only
mode the single mean series is folded; otherwise every per-trial series is
folded. -/
def stepDataset (logy meanOnly rebase useIndex : Bool) (st : Limits)
    (entry : String × DataFrame) : Limits :=
  if (trial_columns entry.2).isEmpty then st
  else if meanOnly then
    updateXY logy st (meanXY entry.2 useIndex).1 (meanXY entry.2 useIndex).2
  else
    (trial_columns entry.2).foldl
      (fun s c =>
        updateXY logy s (per_trial_xy entry.2 c rebase useIndex).1
          (per_trial_xy entry.2 c rebase useIndex).2)
      st

/-- The running min/max scan of `compute_global_limits`, before the
fallback substitution, starting from `(+inf, -inf, +inf, -inf)`. -/
def scanLimits (datasets : List (String × DataFrame))
    (logy meanOnly rebase useIndex : Bool) : Limits :=
  datasets.foldl (stepDataset logy meanOnly rebase useIndex)
    ⟨.inf, .ninf, .inf, .ninf⟩

/-- The fallback substitution for the x-range: `(0, 1)` when the scanned
range is non-finite or degenerate (`xmin == xmax`). -/
def fallbackX (a b : EFloat) : EFloat × EFloat :=
  if !(a.isFinite && b.isFinite) || EFloat.feq a b then (.fin 0, .fin 1)
  else (a, b)

/-- The fallback substitution for the y-range: `(1e-3, 1)` under log scale
and `(0, 1)` otherwise, when the scanned range is non-finite or
degenerate. -/
def fallbackY (logy : Bool) (a b : EFloat) : EFloat × EFloat :=
  if !(a.isFinite && b.isFinite) || EFloat.feq a b then
    if logy then (.fin (1 / 1000), .fin 1) else (.fin 0, .fin 1)
  else (a, b)

/-- `compute_global_limits`: the scan followed by the fallback
substitutions. -/
def compute_global_limits (datasets : List (String × DataFrame))
    (logy meanOnly rebase useIndex : Bool) : Limits :=
  ⟨(fallbackX (scanLimits datasets logy meanOnly rebase useIndex).xmin
      (scanLimits datasets logy meanOnly rebase useIndex).xmax).1,
   (fallbackX (scanLimits datasets logy meanOnly rebase useIndex).xmin
      (scanLimits datasets logy meanOnly rebase useIndex).xmax).2,
   (fallbackY logy (scanLimits datasets logy meanOnly rebase useIndex).ymin
      (scanLimits datasets logy meanOnly rebase useIndex).ymax).1,
   (fallbackY logy (scanLimits datasets logy meanOnly rebase useIndex).ymin
      (scanLimits datasets logy meanOnly rebase useIndex).ymax).2⟩

/-- The renderer's clamp of the lower y-limit before `plt.ylim`: with log
scale active and `ymin <= 0`, replace it by `max(ymin, 1e-12)`. -/
def clampYmin (logy : Bool) (ymin : EFloat) : EFloat :=
  if logy && EFloat.le ymin (.fin 0) then pymax ymin (.fin (1 / 1000000000000))
  else ymin

/-- Every (x, y) pair handed to `plt.plot` by `plot_single_method` for one
table: all per-trial curves (unless mean-only), and the mean curve when
show-mean or mean-only is set. -/
def plottedPoints (df : DataFrame) (meanOnly showMean rebase useIndex : Bool) :
    List (EFloat × EFloat) :=
  (if meanOnly then ([] : List (EFloat × EFloat))
   else (trial_columns df).flatMap
     (fun c => ((per_trial_xy df c rebase useIndex).1).zip
        ((per_trial_xy df c rebase useIndex).2)))
  ++ (if showMean || meanOnly then
        ((meanXY df useIndex).1).zip ((meanXY df useIndex).2)
      else [])

/-- The plotted points that the drawing backend actually renders: both
coordinates finite, and y strictly positive when the y-axis is
logarithmic. -/
def renderedPoints (df : DataFrame) (meanOnly showMean rebase useIndex logy : Bool) :
    List (EFloat × EFloat) :=
  (plottedPoints df meanOnly showMean rebase useIndex).filter
    (fun p => p.1.isFinite && p.2.isFinite && (!logy || EFloat.lt (.fin 0) p.2))

/-- Well-formedness of one running min/max pair of the scan: neither side
is NaN, and either the pair is ordered or it is still the initial
`(+inf, -inf)`. -/
def rangeOK (a b : EFloat) : Prop :=
  a.isNan = false ∧ b.isNan = false ∧
    (EFloat.le a b = true ∨ (a = .inf ∧ b = .ninf))

/-- Invariant of the running limits throughout the scan: both pairs are
well-formed, and under log scale the running `ymin` is still `+inf` or
strictly positive (only positive values are ever folded). -/
def limOK (logy : Bool) (st : Limits) : Prop :=
  rangeOK st.xmin st.xmax ∧ rangeOK st.ymin st.ymax ∧
    (logy = true → st.ymin = .inf ∨ EFloat.lt (.fin 0) st.ymin = true)

/-- `st2` covers at least the interval of `st` on both axes: folding more
series only widens the running limits. -/
def widens (st st2 : Limits) : Prop :=
  EFloat.le st2.xmin st.xmin = true ∧ EFloat.le st.xmax st2.xmax = true ∧
  EFloat.le st2.ymin st.ymin = true ∧ EFloat.le st.ymax st2.ymax = true

/-- The point `p` lies within the rectangle of the limits `st`. -/
def covers (st : Limits) (p : EFloat × EFloat) : Prop :=
  EFloat.le st.xmin p.1 = true ∧ EFloat.le p.1 st.xmax = true ∧
  EFloat.le st.ymin p.2 = true ∧ EFloat.le p.2 st.ymax = true

/-! ## Order lemmas for the float fragment -/

namespace EFloat

theorem lt_nan_left (a : EFloat) : lt .nan a = false := by cases a <;> rfl

theorem lt_nan_right (a : EFloat) : lt a .nan = false := by cases a <;> rfl

theorem lt_irrefl (a : EFloat) : lt a a = false := by
  cases a <;> simp [lt]

theorem lt_asymm {a b : EFloat} (h : lt a b = true) : lt b a = false := by
  cases a <;> cases b <;> simp_all [lt]
  linarith

theorem nonNan_of_lt {a b : EFloat} (h : lt a b = true) :
    a.isNan = false ∧ b.isNan = false := by
  cases a <;> cases b <;> simp_all [lt, isNan]

theorem le_refl {a : EFloat} (h : a.isNan = false) : le a a = true := by
  simp [le, h, lt_irrefl]

theorem le_of_lt {a b : EFloat} (h : lt a b = true) : le a b = true := by
  obtain ⟨ha, hb⟩ := nonNan_of_lt h
  simp [le, ha, hb, lt_asymm h]

theorem le_of_not_lt {a b : EFloat} (ha : a.isNan = false) (hb : b.isNan = false)
    (h : lt b a = false) : le a b = true := by
  simp [le, ha, hb, h]

theorem nonNan_of_le {a b : EFloat} (h : le a b = true) :
    a.isNan = false ∧ b.isNan = false := by
  simp only [le, Bool.and_eq_true, Bool.not_eq_true'] at h
  exact ⟨h.1.1, h.1.2⟩

theorem not_lt_of_le {a b : EFloat} (h : le a b = true) : lt b a = false := by
  simp only [le, Bool.and_eq_true, Bool.not_eq_true'] at h
  exact h.2

theorem le_trans {a b c : EFloat} (hab : le a b = true) (hbc : le b c = true) :
    le a c = true := by
  cases a <;> cases b <;> cases c <;> simp_all [le, lt, isNan]
  linarith

theorem lt_of_le_of_feq_false {a b : EFloat} (hle : le a b = true)
    (hne : feq a b = false) : lt a b = true := by
  cases a <;> cases b <;> simp_all [le, lt, isNan, feq]
  exact lt_of_le_of_ne (by linarith) (by assumption)

theorem feq_false_of_lt {a b : EFloat} (h : lt a b = true) : feq a b = false := by
  cases a <;> cases b <;> simp_all [lt, feq]
  linarith

theorem isFinite_nonNan {a : EFloat} (h : a.isFinite = true) : a.isNan = false := by
  cases a <;> simp_all [isFinite, isNan]

theorem nonNan_of_pos {a : EFloat} (h : lt (.fin 0) a = true) : a.isNan = false :=
  (nonNan_of_lt h).2

theorem le_zero_false_of_pos {a : EFloat} (h : lt (.fin 0) a = true) :
    le a (.fin 0) = false := by
  cases a <;> simp_all [lt, le, isNan]

end EFloat

/-! ## Lemmas about `pymin`, `pymax`, `nanmin`, `nanmax` -/

theorem pymin_nan_right (a : EFloat) : pymin a .nan = a := by
  simp [pymin, EFloat.lt_nan_left]

theorem pymax_nan_right (a : EFloat) : pymax a .nan = a := by
  simp [pymax, EFloat.lt_nan_right]

theorem pymin_eq_or (a b : EFloat) : pymin a b = a ∨ pymin a b = b := by
  unfold pymin; split <;> simp

theorem pymax_eq_or (a b : EFloat) : pymax a b = a ∨ pymax a b = b := by
  unfold pymax; split <;> simp

theorem pymin_nonNan {a b : EFloat} (ha : a.isNan = false) :
    (pymin a b).isNan = false := by
  unfold pymin; split
  · exact (EFloat.nonNan_of_lt (by assumption)).1
  · exact ha

theorem pymax_nonNan {a b : EFloat} (ha : a.isNan = false) :
    (pymax a b).isNan = false := by
  unfold pymax; split
  · exact (EFloat.nonNan_of_lt (by assumption)).2
  · exact ha

theorem pymin_le_left {a b : EFloat} (ha : a.isNan = false) :
    EFloat.le (pymin a b) a = true := by
  unfold pymin; split
  · exact EFloat.le_of_lt (by assumption)
  · exact EFloat.le_refl ha

theorem pymin_le_right {a b : EFloat} (ha : a.isNan = false) (hb : b.isNan = false) :
    EFloat.le (pymin a b) b = true := by
  unfold pymin; split
  · exact EFloat.le_refl hb
  · exact EFloat.le_of_not_lt ha hb (by simp_all)

theorem le_pymax_left {a b : EFloat} (ha : a.isNan = false) :
    EFloat.le a (pymax a b) = true := by
  unfold pymax; split
  · exact EFloat.le_of_lt (by assumption)
  · exact EFloat.le_refl ha

theorem le_pymax_right {a b : EFloat} (ha : a.isNan = false) (hb : b.isNan = false) :
    EFloat.le b (pymax a b) = true := by
  unfold pymax; split
  · exact EFloat.le_refl hb
  · exact EFloat.le_of_not_lt hb ha (by simp_all)

theorem foldl_pymin_mem (h : EFloat) (t : List EFloat) :
    t.foldl pymin h ∈ h :: t := by
  induction t generalizing h with
  | nil => simp
  | cons b t ih =>
      simp only [List.foldl_cons]
      rcases List.mem_cons.mp (ih (pymin h b)) with h1 | h1
      · rw [h1]
        rcases pymin_eq_or h b with he | he <;> rw [he] <;> simp
      · exact List.mem_cons.mpr (Or.inr (List.mem_cons.mpr (Or.inr h1)))

theorem foldl_pymax_mem (h : EFloat) (t : List EFloat) :
    t.foldl pymax h ∈ h :: t := by
  induction t generalizing h with
  | nil => simp
  | cons b t ih =>
      simp only [List.foldl_cons]
      rcases List.mem_cons.mp (ih (pymax h b)) with h1 | h1
      · rw [h1]
        rcases pymax_eq_or h b with he | he <;> rw [he] <;> simp
      · exact List.mem_cons.mpr (Or.inr (List.mem_cons.mpr (Or.inr h1)))

theorem foldl_pymin_le {h : EFloat} {t : List EFloat}
    (hh : h.isNan = false) (ht : ∀ v ∈ t, v.isNan = false) :
    ∀ v ∈ h :: t, EFloat.le (t.foldl pymin h) v = true := by
  induction t generalizing h with
  | nil =>
      intro v hv
      simp at hv
      subst hv
      exact EFloat.le_refl hh
  | cons b t ih =>
      intro v hv
      have hb : b.isNan = false := ht b (by simp)
      have ht' : ∀ w ∈ t, w.isNan = false := fun w hw => ht w (by simp [hw])
      have hmin : (pymin h b).isNan = false := pymin_nonNan hh
      have hle1 : EFloat.le (pymin h b) h = true := pymin_le_left hh
      have hle2 : EFloat.le (pymin h b) b = true := pymin_le_right hh hb
      have hfold : EFloat.le (t.foldl pymin (pymin h b)) (pymin h b) = true :=
        ih hmin ht' (pymin h b) (by simp)
      rcases List.mem_cons.mp hv with rfl | hv'
      · exact EFloat.le_trans hfold hle1
      · rcases List.mem_cons.mp hv' with rfl | hv''
        · simpa using EFloat.le_trans hfold hle2
        · simpa using ih hmin ht' v (by simp [hv''])

theorem foldl_pymax_ge {h : EFloat} {t : List EFloat}
    (hh : h.isNan = false) (ht : ∀ v ∈ t, v.isNan = false) :
    ∀ v ∈ h :: t, EFloat.le v (t.foldl pymax h) = true := by
  induction t generalizing h with
  | nil =>
      intro v hv
      simp at hv
      subst hv
      exact EFloat.le_refl hh
  | cons b t ih =>
      intro v hv
      have hb : b.isNan = false := ht b (by simp)
      have ht' : ∀ w ∈ t, w.isNan = false := fun w hw => ht w (by simp [hw])
      have hmax : (pymax h b).isNan = false := pymax_nonNan hh
      have hle1 : EFloat.le h (pymax h b) = true := le_pymax_left hh
      have hle2 : EFloat.le b (pymax h b) = true := le_pymax_right hh hb
      have hfold : EFloat.le (pymax h b) (t.foldl pymax (pymax h b)) = true :=
        ih hmax ht' (pymax h b) (by simp)
      rcases List.mem_cons.mp hv with rfl | hv'
      · exact EFloat.le_trans hle1 hfold
      · rcases List.mem_cons.mp hv' with rfl | hv''
        · simpa using EFloat.le_trans hle2 hfold
        · simpa using ih hmax ht' v (by simp [hv''])

theorem nanmin_le_of_mem {l : List EFloat} {v : EFloat}
    (hv : v ∈ l) (hnv : v.isNan = false) : EFloat.le (nanmin l) v = true := by
  unfold nanmin
  have hvf : v ∈ l.filter (fun w => !w.isNan) := List.mem_filter.mpr ⟨hv, by simp [hnv]⟩
  split
  · simp_all
  · next h t heq =>
      have hall : ∀ w ∈ h :: t, w.isNan = false := by
        intro w hw
        have : w ∈ l.filter (fun u => !u.isNan) := heq ▸ hw
        simpa using (List.mem_filter.mp this).2
      exact foldl_pymin_le (hall h (by simp)) (fun w hw => hall w (by simp [hw])) v
        (heq ▸ hvf)

theorem le_nanmax_of_mem {l : List EFloat} {v : EFloat}
    (hv : v ∈ l) (hnv : v.isNan = false) : EFloat.le v (nanmax l) = true := by
  unfold nanmax
  have hvf : v ∈ l.filter (fun w => !w.isNan) := List.mem_filter.mpr ⟨hv, by simp [hnv]⟩
  split
  · simp_all
  · next h t heq =>
      have hall : ∀ w ∈ h :: t, w.isNan = false := by
        intro w hw
        have : w ∈ l.filter (fun u => !u.isNan) := heq ▸ hw
        simpa using (List.mem_filter.mp this).2
      exact foldl_pymax_ge (hall h (by simp)) (fun w hw => hall w (by simp [hw])) v
        (heq ▸ hvf)

theorem nanmin_nonNan_of_mem {l : List EFloat} {v : EFloat}
    (hv : v ∈ l) (hnv : v.isNan = false) : (nanmin l).isNan = false :=
  (EFloat.nonNan_of_le (nanmin_le_of_mem hv hnv)).1

theorem nanmax_nonNan_of_mem {l : List EFloat} {v : EFloat}
    (hv : v ∈ l) (hnv : v.isNan = false) : (nanmax l).isNan = false :=
  (EFloat.nonNan_of_le (le_nanmax_of_mem hv hnv)).2

theorem nanmin_le_nanmax_of_mem {l : List EFloat} {v : EFloat}
    (hv : v ∈ l) (hnv : v.isNan = false) :
    EFloat.le (nanmin l) (nanmax l) = true :=
  EFloat.le_trans (nanmin_le_of_mem hv hnv) (le_nanmax_of_mem hv hnv)

theorem nanmin_mem_of_mem {l : List EFloat} {v : EFloat}
    (hv : v ∈ l) (hnv : v.isNan = false) : nanmin l ∈ l := by
  unfold nanmin
  have hvf : v ∈ l.filter (fun w => !w.isNan) := List.mem_filter.mpr ⟨hv, by simp [hnv]⟩
  split
  · simp_all
  · next h t heq =>
      have hm : t.foldl pymin h ∈ h :: t := foldl_pymin_mem h t
      have hm2 : t.foldl pymin h ∈ l.filter (fun w => !w.isNan) := heq ▸ hm
      exact (List.mem_filter.mp hm2).1

theorem nanmin_pos {l : List EFloat} {v : EFloat}
    (hv : v ∈ l) (hnv : v.isNan = false)
    (hpos : ∀ w ∈ l, EFloat.lt (.fin 0) w = true) :
    EFloat.lt (.fin 0) (nanmin l) = true :=
  hpos _ (nanmin_mem_of_mem hv hnv)

/-! ## Invariants of the running limit scan -/

theorem nanmin_all_nan {l : List EFloat} (h : ∀ v ∈ l, v.isNan = true) :
    nanmin l = .nan := by
  unfold nanmin
  have hf : l.filter (fun v => !v.isNan) = [] :=
    List.filter_eq_nil_iff.mpr (fun a ha => by simp [h a ha])
  rw [hf]

theorem nanmax_all_nan {l : List EFloat} (h : ∀ v ∈ l, v.isNan = true) :
    nanmax l = .nan := by
  unfold nanmax
  have hf : l.filter (fun v => !v.isNan) = [] :=
    List.filter_eq_nil_iff.mpr (fun a ha => by simp [h a ha])
  rw [hf]

theorem updatePair_rangeOK {a b : EFloat} (h : rangeOK a b) (l : List EFloat) :
    rangeOK (pymin a (nanmin l)) (pymax b (nanmax l)) := by
  obtain ⟨ha, hb, hord⟩ := h
  by_cases hex : ∃ v ∈ l, v.isNan = false
  · obtain ⟨v, hv, hnv⟩ := hex
    have hm : (nanmin l).isNan = false := nanmin_nonNan_of_mem hv hnv
    have hM : (nanmax l).isNan = false := nanmax_nonNan_of_mem hv hnv
    have hmM : EFloat.le (nanmin l) (nanmax l) = true := nanmin_le_nanmax_of_mem hv hnv
    refine ⟨pymin_nonNan ha, pymax_nonNan hb, Or.inl ?_⟩
    exact EFloat.le_trans (pymin_le_right ha hm)
      (EFloat.le_trans hmM (le_pymax_right hb hM))
  · push_neg at hex
    have hall : ∀ v ∈ l, v.isNan = true := by
      intro v hv
      simpa using hex v hv
    rw [nanmin_all_nan hall, nanmax_all_nan hall, pymin_nan_right, pymax_nan_right]
    exact ⟨ha, hb, hord⟩

theorem foldX_rangeOK {a b : EFloat} (h : rangeOK a b) (x : List EFloat) :
    rangeOK (foldX a b x).1 (foldX a b x).2 := by
  unfold foldX
  split
  · exact updatePair_rangeOK h x
  · exact h

theorem foldY_rangeOK {a b : EFloat} (logy : Bool) (h : rangeOK a b)
    (y : List EFloat) :
    rangeOK (foldY logy a b y).1 (foldY logy a b y).2 := by
  unfold foldY
  split
  · split
    · split
      · exact updatePair_rangeOK h _
      · exact h
    · exact updatePair_rangeOK h y
  · exact h

theorem foldY_pos {a b : EFloat} {y : List EFloat}
    (hpos : a = .inf ∨ EFloat.lt (.fin 0) a = true) :
    (foldY true a b y).1 = .inf ∨ EFloat.lt (.fin 0) (foldY true a b y).1 = true := by
  unfold foldY
  split
  · rw [if_pos rfl]
    split
    · next hlen =>
        have hne : (y.filter (fun v => EFloat.lt (.fin 0) v)) ≠ [] := by
          intro h0
          rw [h0] at hlen
          simp at hlen
        obtain ⟨v, hv⟩ := List.exists_mem_of_ne_nil _ hne
        have hvpos : EFloat.lt (.fin 0) v = true := (List.mem_filter.mp hv).2
        have hvnn : v.isNan = false := EFloat.nonNan_of_pos hvpos
        have hmpos : EFloat.lt (.fin 0)
            (nanmin (y.filter (fun v => EFloat.lt (.fin 0) v))) = true :=
          nanmin_pos hv hvnn (fun w hw => (List.mem_filter.mp hw).2)
        rcases pymin_eq_or a (nanmin (y.filter (fun v => EFloat.lt (.fin 0) v)))
          with he | he
        · rw [he]
          exact hpos
        · rw [he]
          exact Or.inr hmpos
    · exact hpos
  · exact hpos

theorem updateXY_limOK {logy : Bool} {st : Limits} (h : limOK logy st)
    (x y : List EFloat) : limOK logy (updateXY logy st x y) := by
  obtain ⟨hx, hy, hpos⟩ := h
  refine ⟨foldX_rangeOK hx x, foldY_rangeOK logy hy y, ?_⟩
  intro hlogy
  subst hlogy
  exact foldY_pos (hpos rfl)

theorem foldX_widens {a b : EFloat} (ha : a.isNan = false) (hb : b.isNan = false)
    (x : List EFloat) :
    EFloat.le (foldX a b x).1 a = true ∧ EFloat.le b (foldX a b x).2 = true := by
  unfold foldX
  split
  · exact ⟨pymin_le_left ha, le_pymax_left hb⟩
  · exact ⟨EFloat.le_refl ha, EFloat.le_refl hb⟩

theorem foldY_widens {a b : EFloat} (logy : Bool) (ha : a.isNan = false)
    (hb : b.isNan = false) (y : List EFloat) :
    EFloat.le (foldY logy a b y).1 a = true
    ∧ EFloat.le b (foldY logy a b y).2 = true := by
  unfold foldY
  split
  · split
    · split
      · exact ⟨pymin_le_left ha, le_pymax_left hb⟩
      · exact ⟨EFloat.le_refl ha, EFloat.le_refl hb⟩
    · exact ⟨pymin_le_left ha, le_pymax_left hb⟩
  · exact ⟨EFloat.le_refl ha, EFloat.le_refl hb⟩

theorem updateXY_widens {logy : Bool} {st : Limits} (h : limOK logy st)
    (x y : List EFloat) : widens st (updateXY logy st x y) := by
  obtain ⟨⟨hx1, hx2, _⟩, ⟨hy1, hy2, _⟩, _⟩ := h
  exact ⟨(foldX_widens hx1 hx2 x).1, (foldX_widens hx1 hx2 x).2,
    (foldY_widens logy hy1 hy2 y).1, (foldY_widens logy hy1 hy2 y).2⟩

theorem widens_refl {logy : Bool} {st : Limits} (h : limOK logy st) :
    widens st st := by
  obtain ⟨⟨hx1, hx2, _⟩, ⟨hy1, hy2, _⟩, _⟩ := h
  exact ⟨EFloat.le_refl hx1, EFloat.le_refl hx2, EFloat.le_refl hy1, EFloat.le_refl hy2⟩

theorem widens_trans {s1 s2 s3 : Limits} (h12 : widens s1 s2) (h23 : widens s2 s3) :
    widens s1 s3 :=
  ⟨EFloat.le_trans h23.1 h12.1, EFloat.le_trans h12.2.1 h23.2.1,
   EFloat.le_trans h23.2.2.1 h12.2.2.1, EFloat.le_trans h12.2.2.2 h23.2.2.2⟩

theorem foldl_limOK_widens {β : Type} (logy : Bool) (f : Limits → β → Limits)
    (hf : ∀ st c, limOK logy st → limOK logy (f st c) ∧ widens st (f st c)) :
    ∀ (l : List β) (st : Limits), limOK logy st →
      limOK logy (l.foldl f st) ∧ widens st (l.foldl f st) := by
  intro l
  induction l with
  | nil => exact fun st h => ⟨h, widens_refl h⟩
  | cons c t ih =>
      intro st h
      obtain ⟨h1, h2⟩ := hf st c h
      obtain ⟨h3, h4⟩ := ih (f st c) h1
      exact ⟨h3, widens_trans h2 h4⟩

theorem stepDataset_limOK_widens (logy meanOnly rebase useIndex : Bool)
    {st : Limits} (h : limOK logy st) (entry : String × DataFrame) :
    limOK logy (stepDataset logy meanOnly rebase useIndex st entry)
    ∧ widens st (stepDataset logy meanOnly rebase useIndex st entry) := by
  unfold stepDataset
  split
  · exact ⟨h, widens_refl h⟩
  · split
    · exact ⟨updateXY_limOK h _ _, updateXY_widens h _ _⟩
    · exact foldl_limOK_widens logy _
        (fun s c hs => ⟨updateXY_limOK hs _ _, updateXY_widens hs _ _⟩) _ st h

theorem initLimits_limOK (logy : Bool) :
    limOK logy ⟨.inf, .ninf, .inf, .ninf⟩ :=
  ⟨⟨rfl, rfl, Or.inr ⟨rfl, rfl⟩⟩, ⟨rfl, rfl, Or.inr ⟨rfl, rfl⟩⟩, fun _ => Or.inl rfl⟩

theorem scanLimits_limOK (datasets : List (String × DataFrame))
    (logy meanOnly rebase useIndex : Bool) :
    limOK logy (scanLimits datasets logy meanOnly rebase useIndex) :=
  (foldl_limOK_widens logy (stepDataset logy meanOnly rebase useIndex)
    (fun s e hs => stepDataset_limOK_widens logy meanOnly rebase useIndex hs e)
    datasets ⟨.inf, .ninf, .inf, .ninf⟩ (initLimits_limOK logy)).1

theorem fallbackX_ok {a b : EFloat} (h : rangeOK a b) :
    (fallbackX a b).1.isFinite = true ∧ (fallbackX a b).2.isFinite = true
    ∧ EFloat.lt (fallbackX a b).1 (fallbackX a b).2 = true := by
  obtain ⟨ha, hb, hord⟩ := h
  unfold fallbackX
  split
  · exact ⟨rfl, rfl, by decide⟩
  · next hcond =>
      have hc : (!(a.isFinite && b.isFinite) || EFloat.feq a b) = false := by
        simpa using hcond
      have hfin : (a.isFinite && b.isFinite) = true := by
        rcases Bool.or_eq_false_iff.mp hc with ⟨h1, _⟩
        simpa using h1
      have hfeq : EFloat.feq a b = false := (Bool.or_eq_false_iff.mp hc).2
      obtain ⟨hfa, hfb⟩ : a.isFinite = true ∧ b.isFinite = true := by
        simpa using hfin
      refine ⟨hfa, hfb, ?_⟩
      rcases hord with hle | ⟨ha2, hb2⟩
      · exact EFloat.lt_of_le_of_feq_false hle hfeq
      · rw [ha2] at hfa
        cases hfa

theorem fallbackY_ok {a b : EFloat} (logy : Bool) (h : rangeOK a b) :
    (fallbackY logy a b).1.isFinite = true ∧ (fallbackY logy a b).2.isFinite = true
    ∧ EFloat.lt (fallbackY logy a b).1 (fallbackY logy a b).2 = true := by
  obtain ⟨ha, hb, hord⟩ := h
  unfold fallbackY
  split
  · cases logy
    · rw [if_neg (by simp : ¬(false = true))]
      exact ⟨rfl, rfl, by decide⟩
    · rw [if_pos rfl]
      refine ⟨rfl, rfl, ?_⟩
      show decide ((1 : ℚ) / 1000 < 1) = true
      norm_num
  · next hcond =>
      have hc : (!(a.isFinite && b.isFinite) || EFloat.feq a b) = false := by
        simpa using hcond
      have hfin : (a.isFinite && b.isFinite) = true := by
        rcases Bool.or_eq_false_iff.mp hc with ⟨h1, _⟩
        simpa using h1
      have hfeq : EFloat.feq a b = false := (Bool.or_eq_false_iff.mp hc).2
      obtain ⟨hfa, hfb⟩ : a.isFinite = true ∧ b.isFinite = true := by
        simpa using hfin
      refine ⟨hfa, hfb, ?_⟩
      rcases hord with hle | ⟨ha2, hb2⟩
      · exact EFloat.lt_of_le_of_feq_false hle hfeq
      · rw [ha2] at hfa
        cases hfa

theorem widens_covers {st st2 : Limits} {p : EFloat × EFloat}
    (hw : widens st st2) (hc : covers st p) : covers st2 p :=
  ⟨EFloat.le_trans hw.1 hc.1, EFloat.le_trans hc.2.1 hw.2.1,
   EFloat.le_trans hw.2.2.1 hc.2.2.1, EFloat.le_trans hc.2.2.2 hw.2.2.2⟩

theorem updateXY_covers {logy : Bool} {st : Limits} {x y : List EFloat}
    {p : EFloat × EFloat} (h : limOK logy st)
    (hp : p ∈ x.zip y) (hx : p.1.isFinite = true) (hy : p.2.isFinite = true)
    (hpos : logy = true → EFloat.lt (.fin 0) p.2 = true) :
    covers (updateXY logy st x y) p := by
  obtain ⟨⟨ha, hb, _⟩, ⟨hc, hd, _⟩, _⟩ := h
  obtain ⟨p1, p2⟩ := p
  obtain ⟨hp1, hp2⟩ := List.of_mem_zip hp
  have hnn1 : p1.isNan = false := EFloat.isFinite_nonNan hx
  have hnn2 : p2.isNan = false := EFloat.isFinite_nonNan hy
  have hxlen : 0 < x.length := List.length_pos.mpr (List.ne_nil_of_mem hp1)
  have hylen : 0 < y.length := List.length_pos.mpr (List.ne_nil_of_mem hp2)
  have hfx : foldX st.xmin st.xmax x = (pymin st.xmin (nanmin x), pymax st.xmax (nanmax x)) := by
    unfold foldX
    rw [if_pos hxlen]
  have hxmin : EFloat.le (foldX st.xmin st.xmax x).1 p1 = true := by
    rw [hfx]
    exact EFloat.le_trans (pymin_le_right ha (nanmin_nonNan_of_mem hp1 hnn1))
      (nanmin_le_of_mem hp1 hnn1)
  have hxmax : EFloat.le p1 (foldX st.xmin st.xmax x).2 = true := by
    rw [hfx]
    exact EFloat.le_trans (le_nanmax_of_mem hp1 hnn1)
      (le_pymax_right hb (nanmax_nonNan_of_mem hp1 hnn1))
  have hyb : EFloat.le (foldY logy st.ymin st.ymax y).1 p2 = true
      ∧ EFloat.le p2 (foldY logy st.ymin st.ymax y).2 = true := by
    cases logy with
    | false =>
        have hfy : foldY false st.ymin st.ymax y
            = (pymin st.ymin (nanmin y), pymax st.ymax (nanmax y)) := by
          unfold foldY
          rw [if_pos hylen, if_neg (by simp : ¬(false = true))]
        rw [hfy]
        exact ⟨EFloat.le_trans (pymin_le_right hc (nanmin_nonNan_of_mem hp2 hnn2))
            (nanmin_le_of_mem hp2 hnn2),
          EFloat.le_trans (le_nanmax_of_mem hp2 hnn2)
            (le_pymax_right hd (nanmax_nonNan_of_mem hp2 hnn2))⟩
    | true =>
        have hp2pos : EFloat.lt (.fin 0) p2 = true := hpos rfl
        have hp2f : p2 ∈ y.filter (fun v => EFloat.lt (.fin 0) v) :=
          List.mem_filter.mpr ⟨hp2, hp2pos⟩
        have hplen : 0 < (y.filter (fun v => EFloat.lt (.fin 0) v)).length :=
          List.length_pos.mpr (List.ne_nil_of_mem hp2f)
        have hfy : foldY true st.ymin st.ymax y
            = (pymin st.ymin (nanmin (y.filter (fun v => EFloat.lt (.fin 0) v))),
               pymax st.ymax (nanmax (y.filter (fun v => EFloat.lt (.fin 0) v)))) := by
          unfold foldY
          rw [if_pos hylen, if_pos rfl, if_pos hplen]
        rw [hfy]
        exact ⟨EFloat.le_trans (pymin_le_right hc (nanmin_nonNan_of_mem hp2f hnn2))
            (nanmin_le_of_mem hp2f hnn2),
          EFloat.le_trans (le_nanmax_of_mem hp2f hnn2)
            (le_pymax_right hd (nanmax_nonNan_of_mem hp2f hnn2))⟩
  exact ⟨hxmin, hxmax, hyb.1, hyb.2⟩

theorem stepDataset_covers {logy meanOnly showMean rebase useIndex : Bool}
    {st : Limits} (h : limOK logy st) (label : String) (df : DataFrame)
    (hsm : showMean = true → meanOnly = true)
    {p : EFloat × EFloat}
    (hp : p ∈ renderedPoints df meanOnly showMean rebase useIndex logy) :
    covers (stepDataset logy meanOnly rebase useIndex st (label, df)) p := by
  obtain ⟨hpl, hflt⟩ := List.mem_filter.mp hp
  obtain ⟨⟨hx, hy⟩, hposb⟩ : (p.1.isFinite = true ∧ p.2.isFinite = true)
      ∧ (logy = false ∨ EFloat.lt (.fin 0) p.2 = true) := by
    simpa using hflt
  have hpos : logy = true → EFloat.lt (.fin 0) p.2 = true := by
    intro hl
    rcases hposb with hl2 | hp2
    · rw [hl] at hl2
      cases hl2
    · exact hp2
  rcases List.mem_append.mp hpl with htr | hmn
  · -- per-trial curve
    by_cases hmo : meanOnly = true
    · rw [if_pos hmo] at htr
      cases htr
    · have hmo2 : meanOnly = false := by simpa using hmo
      rw [if_neg hmo] at htr
      obtain ⟨c, hc, hpc⟩ := List.mem_flatMap.mp htr
      have hcolne : ¬ ((trial_columns df).isEmpty = true) := by
        cases hcols0 : trial_columns df with
        | nil => rw [hcols0] at hc; cases hc
        | cons a t => simp
      unfold stepDataset
      rw [if_neg hcolne, if_neg hmo]
      obtain ⟨l1, l2, hsplit⟩ := List.append_of_mem hc
      rw [hsplit, List.foldl_append]
      simp only [List.foldl_cons]
      have h1 := (foldl_limOK_widens logy
        (fun s c2 => updateXY logy s (per_trial_xy df c2 rebase useIndex).1
          (per_trial_xy df c2 rebase useIndex).2)
        (fun s c2 hs => ⟨updateXY_limOK hs _ _, updateXY_widens hs _ _⟩) l1 st h).1
      have hcov := updateXY_covers h1 hpc hx hy hpos
      have h2 := updateXY_limOK h1 (per_trial_xy df c rebase useIndex).1
        (per_trial_xy df c rebase useIndex).2
      have h3 := (foldl_limOK_widens logy
        (fun s c2 => updateXY logy s (per_trial_xy df c2 rebase useIndex).1
          (per_trial_xy df c2 rebase useIndex).2)
        (fun s c2 hs => ⟨updateXY_limOK hs _ _, updateXY_widens hs _ _⟩) l2 _ h2).2
      exact widens_covers h3 hcov
  · -- mean curve
    have hpz : p ∈ ((meanXY df useIndex).1).zip ((meanXY df useIndex).2) := by
      by_cases hcond : (showMean || meanOnly) = true
      · rw [if_pos hcond] at hmn
        exact hmn
      · rw [if_neg hcond] at hmn
        cases hmn
    by_cases hcl : (trial_columns df).isEmpty = true
    · -- no trial columns: the mean series is all NaN, so no rendered point exists
      exfalso
      have hcols0 : trial_columns df = [] := by
        cases hcols1 : trial_columns df with
        | nil => rfl
        | cons a t => rw [hcols1] at hcl; simp at hcl
      have hp2 : p.2 ∈ (meanXY df useIndex).2 := (List.of_mem_zip
        (by exact (Prod.mk.eta (p := p)) ▸ hpz)).2
      have hp2nan : p.2 = .nan := by
        unfold meanXY at hp2
        cases useIndex with
        | true =>
            rw [if_pos rfl] at hp2
            obtain ⟨r, _, hr⟩ := List.mem_map.mp hp2
            rw [hcols0] at hr
            simpa [rowMean] using hr.symm
        | false =>
            rw [if_neg (by simp : ¬(false = true))] at hp2
            obtain ⟨r, _, hr⟩ := List.mem_map.mp hp2
            rw [hcols0] at hr
            simpa [rowMean] using hr.symm
      rw [hp2nan] at hy
      cases hy
    · by_cases hmo : meanOnly = true
      · unfold stepDataset
        rw [if_neg hcl, if_pos hmo]
        exact updateXY_covers h hpz hx hy hpos
      · exfalso
        cases hsme : showMean with
        | true => exact hmo (hsm hsme)
        | false =>
            have : (showMean || meanOnly) = false := by
              rw [hsme]
              simpa using hmo
            rw [if_neg (by simp [this] : ¬((showMean || meanOnly) = true))] at hmn
            cases hmn

theorem scanLimits_covers {logy meanOnly showMean rebase useIndex : Bool}
    {datasets : List (String × DataFrame)} {label : String} {df : DataFrame}
    (hmem : (label, df) ∈ datasets)
    (hsm : showMean = true → meanOnly = true)
    {p : EFloat × EFloat}
    (hp : p ∈ renderedPoints df meanOnly showMean rebase useIndex logy) :
    covers (scanLimits datasets logy meanOnly rebase useIndex) p := by
  obtain ⟨l1, l2, hsplit⟩ := List.append_of_mem hmem
  unfold scanLimits
  rw [hsplit, List.foldl_append]
  simp only [List.foldl_cons]
  have h1 := (foldl_limOK_widens logy (stepDataset logy meanOnly rebase useIndex)
    (fun s e hs => stepDataset_limOK_widens logy meanOnly rebase useIndex hs e)
    l1 _ (initLimits_limOK logy)).1
  have hcov := stepDataset_covers h1 label df hsm hp
  have h2 := (stepDataset_limOK_widens logy meanOnly rebase useIndex h1 (label, df)).1
  have h3 := (foldl_limOK_widens logy (stepDataset logy meanOnly rebase useIndex)
    (fun s e hs => stepDataset_limOK_widens logy meanOnly rebase useIndex hs e)
    l2 _ h2).2
  exact widens_covers h3 hcov

theorem fallbackX_id {a b : EFloat} (hfa : a.isFinite = true)
    (hfb : b.isFinite = true) (hne : EFloat.feq a b = false) :
    fallbackX a b = (a, b) := by
  have hc : (!(a.isFinite && b.isFinite) || EFloat.feq a b) = false := by
    simp [hfa, hfb, hne]
  unfold fallbackX
  rw [hc]
  simp

theorem fallbackY_id {a b : EFloat} (logy : Bool) (hfa : a.isFinite = true)
    (hfb : b.isFinite = true) (hne : EFloat.feq a b = false) :
    fallbackY logy a b = (a, b) := by
  have hc : (!(a.isFinite && b.isFinite) || EFloat.feq a b) = false := by
    simp [hfa, hfb, hne]
  unfold fallbackY
  rw [hc]
  simp

theorem clampYmin_id {logy : Bool} {v : EFloat}
    (h : logy = true → EFloat.lt (.fin 0) v = true) : clampYmin logy v = v := by
  unfold clampYmin
  cases logy with
  | false => simp
  | true =>
      have hle : EFloat.le v (.fin 0) = false := EFloat.le_zero_false_of_pos (h rfl)
      rw [hle]
      simp

/-! ## The row-level mask of `per_trial_xy` -/

theorem zip_filter_snd {α β : Type} (p : β → Bool) (as : List α) (bs : List β)
    (h : as.length = bs.length) :
    ((as.zip bs).filter (fun q => p q.2)).map (fun q => q.2) = bs.filter p := by
  induction as generalizing bs with
  | nil =>
      cases bs with
      | nil => rfl
      | cons b bs => simp at h
  | cons a as ih =>
      cases bs with
      | nil => simp at h
      | cons b bs =>
          simp only [List.zip_cons_cons, List.filter_cons]
          by_cases hp : p b
          · simp [hp, ih bs (by simpa using h)]
          · simp [hp, ih bs (by simpa using h)]

theorem per_trial_xy_snd (df : DataFrame) (col : String) (rebase useIndex : Bool) :
    (per_trial_xy df col rebase useIndex).2
      = ((getCol df col).map Cell.toNumeric).filter (fun v => !v.isNan) := by
  have hlen : ((getCol df "NoOfEvals").map Cell.toNumeric).length
      = ((getCol df col).map Cell.toNumeric).length := by
    simp [getCol]
  simpa [per_trial_xy] using
    zip_filter_snd (fun v => !EFloat.isNan v) _ _ hlen

/-! ## The stable sort and keep-last deduplication of the cleaner -/

theorem mem_insertRow {key : α → EFloat} {r a : α} {l : List α} :
    a ∈ insertRow key r l ↔ a = r ∨ a ∈ l := by
  induction l with
  | nil => simp [insertRow]
  | cons s t ih =>
      unfold insertRow
      split
      · simp only [List.mem_cons, ih]
        tauto
      · simp only [List.mem_cons]
        try tauto

theorem mem_sortRows {key : α → EFloat} {a : α} {l : List α} :
    a ∈ sortRows key l ↔ a ∈ l := by
  induction l with
  | nil => simp [sortRows]
  | cons r t ih =>
      unfold sortRows
      rw [mem_insertRow]
      simp [ih]

theorem insertRow_pairwise {key : α → EFloat} {r : α} {l : List α}
    (hnr : (key r).isNan = false)
    (hnl : ∀ a ∈ l, (key a).isNan = false)
    (hp : l.Pairwise (fun a b => EFloat.le (key a) (key b) = true)) :
    (insertRow key r l).Pairwise (fun a b => EFloat.le (key a) (key b) = true) := by
  induction l with
  | nil => simp [insertRow]
  | cons s t ih =>
      have hns : (key s).isNan = false := hnl s (by simp)
      have hnt : ∀ a ∈ t, (key a).isNan = false := fun a ha => hnl a (by simp [ha])
      rcases List.pairwise_cons.mp hp with ⟨hst, hpt⟩
      unfold insertRow
      split
      · next hlt =>
          refine List.pairwise_cons.mpr ⟨?_, ih hnt hpt⟩
          intro u hu
          rcases mem_insertRow.mp hu with rfl | hu2
          · exact EFloat.le_of_lt hlt
          · exact hst u hu2
      · next hlt =>
          have hrs : EFloat.le (key r) (key s) = true :=
            EFloat.le_of_not_lt hnr hns (by simpa using hlt)
          refine List.pairwise_cons.mpr ⟨?_, hp⟩
          intro u hu
          rcases List.mem_cons.mp hu with rfl | hu2
          · exact hrs
          · exact EFloat.le_trans hrs (hst u hu2)

theorem sortRows_pairwise {key : α → EFloat} {l : List α}
    (hnl : ∀ a ∈ l, (key a).isNan = false) :
    (sortRows key l).Pairwise (fun a b => EFloat.le (key a) (key b) = true) := by
  induction l with
  | nil => simp [sortRows]
  | cons r t ih =>
      unfold sortRows
      exact insertRow_pairwise (hnl r (by simp))
        (fun a ha => hnl a (by simp [mem_sortRows.mp ha]))
        (ih (fun a ha => hnl a (by simp [ha])))

theorem sortRows_eq_of_chain {key : α → EFloat} {l : List α}
    (h : l.Chain' (fun a b => EFloat.lt (key b) (key a) = false)) :
    sortRows key l = l := by
  induction l with
  | nil => rfl
  | cons r t ih =>
      have ht : t.Chain' (fun a b => EFloat.lt (key b) (key a) = false) := h.tail
      unfold sortRows
      rw [ih ht]
      cases t with
      | nil => rfl
      | cons s u =>
          have hrs : EFloat.lt (key s) (key r) = false :=
            (List.chain'_cons.mp h).1
          unfold insertRow
          rw [hrs]
          simp

theorem mem_dedupKeepLast {key : α → EFloat} {a : α} {l : List α}
    (h : a ∈ dedupKeepLast key l) : a ∈ l := by
  induction l with
  | nil => simpa [dedupKeepLast] using h
  | cons r t ih =>
      unfold dedupKeepLast at h
      split at h
      · simp [ih h]
      · rcases List.mem_cons.mp h with rfl | h2
        · simp
        · simp [ih h2]

theorem dedupKeepLast_pairwise_lt {key : α → EFloat} {l : List α}
    (hnl : ∀ a ∈ l, (key a).isNan = false)
    (hp : l.Pairwise (fun a b => EFloat.le (key a) (key b) = true)) :
    (dedupKeepLast key l).Pairwise (fun a b => EFloat.lt (key a) (key b) = true) := by
  induction l with
  | nil => simp [dedupKeepLast]
  | cons r t ih =>
      have hnt : ∀ a ∈ t, (key a).isNan = false := fun a ha => hnl a (by simp [ha])
      rcases List.pairwise_cons.mp hp with ⟨hrt, hpt⟩
      unfold dedupKeepLast
      split
      · exact ih hnt hpt
      · next hany =>
          have hne : ∀ s ∈ t, EFloat.feq (key r) (key s) = false := by
            intro s hs
            have := List.any_eq_false.mp (by simpa using hany) s hs
            simpa using this
          refine List.pairwise_cons.mpr ⟨?_, ih hnt hpt⟩
          intro u hu
          have hu2 : u ∈ t := mem_dedupKeepLast hu
          exact EFloat.lt_of_le_of_feq_false (hrt u hu2) (hne u hu2)

theorem dedupKeepLast_eq_of_pairwise_lt {key : α → EFloat} {l : List α}
    (hp : l.Pairwise (fun a b => EFloat.lt (key a) (key b) = true)) :
    dedupKeepLast key l = l := by
  induction l with
  | nil => rfl
  | cons r t ih =>
      rcases List.pairwise_cons.mp hp with ⟨hrt, hpt⟩
      unfold dedupKeepLast
      have hany : t.any (fun s => EFloat.feq (key r) (key s)) = false := by
        rw [List.any_eq_false]
        intro s hs
        simp [EFloat.feq_false_of_lt (hrt s hs)]
      rw [hany]
      simp [ih hpt]

/-! ## Unpacking a successful clean -/

theorem read_csv_clean_ok {path : String} {df dfc : DataFrame}
    (h : read_csv_clean path df = .ok dfc) :
    "NoOfEvals" ∈ df.header ∧
    dfc = ⟨df.header, cleanRows (df.header.indexOf "NoOfEvals") df.rows⟩ := by
  by_cases hmem : "NoOfEvals" ∈ df.header
  · refine ⟨hmem, ?_⟩
    unfold read_csv_clean at h
    rw [if_pos hmem] at h
    injection h with h2
    exact h2.symm
  · unfold read_csv_clean at h
    rw [if_neg hmem] at h
    cases h

theorem cleaned_rows_pairwise (idx : ℕ) (rows : List (List Cell)) :
    (cleanRows idx rows).Pairwise
      (fun r s => EFloat.lt (keyOf idx r) (keyOf idx s) = true) := by
  have h2 : ∀ r ∈ (rows.map (coerceKey idx)).filter (fun r => !(keyOf idx r).isNan),
      (keyOf idx r).isNan = false := by
    intro r hr
    simpa using List.of_mem_filter hr
  have h3 : ∀ r ∈ sortRows (keyOf idx)
      ((rows.map (coerceKey idx)).filter (fun r => !(keyOf idx r).isNan)),
      (keyOf idx r).isNan = false :=
    fun r hr => h2 r (mem_sortRows.mp hr)
  exact dedupKeepLast_pairwise_lt h3 (sortRows_pairwise h2)

theorem coerceKey_idem (i : ℕ) (r : List Cell) :
    coerceKey i (coerceKey i r) = coerceKey i r := by
  induction r generalizing i with
  | nil => rfl
  | cons c t ih =>
      cases i with
      | zero => simp [coerceKey, keyOf, Cell.toNumeric]
      | succ i =>
          have hstep : ∀ (s : List Cell), coerceKey (i + 1) (c :: s) = c :: coerceKey i s := by
            intro s
            simp [coerceKey, keyOf, List.set]
          rw [hstep, hstep, ih]

theorem map_id_of_mem {l : List α} {f : α → α} (h : ∀ a ∈ l, f a = a) :
    l.map f = l := by
  induction l with
  | nil => rfl
  | cons a t ih =>
      simp only [List.map_cons, h a (by simp)]
      rw [ih (fun b hb => h b (by simp [hb]))]

/-! ## Claim theorems -/

/-- **C5.** Cleaning a table whose `NoOfEvals` column contains duplicate
values keeps, for each duplicated evaluation count, the row that occurred
last in the input: for `NoOfEvals = [0, 0, 10]` and a value column
`[1, 2, 3]`, the cleaned table has `NoOfEvals = [0, 10]` with values
`[2, 3]`. -/
theorem c5_duplicate_keep_last :
    read_csv_clean "dup.csv"
      (⟨["NoOfEvals", "V"],
        [[.num (.fin 0), .num (.fin 1)], [.num (.fin 0), .num (.fin 2)],
         [.num (.fin 10), .num (.fin 3)]]⟩ : DataFrame)
      = .ok ⟨["NoOfEvals", "V"],
        [[.num (.fin 0), .num (.fin 2)], [.num (.fin 10), .num (.fin 3)]]⟩ := by
  rfl

/-- **C6.** For every table, trial column and flag combination, the series
extractor returns x and y of equal length; the length equals the number of
entries of the trial column that survive numeric coercion; and every
retained y value is numeric (no NaN remains). -/
theorem c6_series_extraction (df : DataFrame) (col : String) (rebase useIndex : Bool) :
    (per_trial_xy df col rebase useIndex).1.length
        = (per_trial_xy df col rebase useIndex).2.length
    ∧ (per_trial_xy df col rebase useIndex).2.all (fun v => !v.isNan) = true
    ∧ (per_trial_xy df col rebase useIndex).2.length
        = (((getCol df col).map Cell.toNumeric).filter (fun v => !v.isNan)).length := by
  refine ⟨?_, ?_, ?_⟩
  · simp only [per_trial_xy]
    cases useIndex with
    | true =>
        rw [if_pos rfl, List.length_map, List.length_range]
    | false =>
        rw [if_neg (by simp)]
        cases rebase with
        | false =>
            rw [if_neg (by simp)]
            simp only [List.length_map]
        | true =>
            rw [if_pos rfl]
            split
            · next heq =>
                have h2 : (((getCol df "NoOfEvals").map Cell.toNumeric).zip
                    ((getCol df col).map Cell.toNumeric)).filter (fun p => !p.2.isNan)
                      = [] := List.map_eq_nil_iff.mp heq
                rw [h2]
                rfl
            · simp only [List.length_map]
  · rw [per_trial_xy_snd]
    rw [List.all_eq_true]
    intro v hv
    exact (List.mem_filter.mp hv).2
  · rw [per_trial_xy_snd]

/-- **C8.** When folding a series into the running y-limits, under log
scale only the strictly positive y values are considered (a series with no
positive value contributes nothing), and under linear scale exactly the
non-NaN values — in particular all finite values — are considered. -/
theorem c8_yaxis_folding (a b : EFloat) (y : List EFloat) :
    foldY true a b y = foldY true a b (y.filter (fun v => EFloat.lt (.fin 0) v))
    ∧ (y.filter (fun v => EFloat.lt (.fin 0) v) = [] → foldY true a b y = (a, b))
    ∧ foldY false a b y = foldY false a b (y.filter (fun v => !v.isNan)) := by
  refine ⟨?_, ?_, ?_⟩
  · unfold foldY
    by_cases hy : 0 < y.length
    · simp only [hy, if_true]
      have hff : (y.filter (fun v => EFloat.lt (.fin 0) v)).filter
          (fun v => EFloat.lt (.fin 0) v) = y.filter (fun v => EFloat.lt (.fin 0) v) :=
        List.filter_eq_self.mpr (fun w hw => (List.mem_filter.mp hw).2)
      by_cases hp : 0 < (y.filter (fun v => EFloat.lt (.fin 0) v)).length
      · simp [hp, hff]
      · simp [hp, hff]
    · have h0 : y = [] := by
        cases y with
        | nil => rfl
        | cons c t => simp at hy
      simp [h0]
  · intro hnil
    unfold foldY
    by_cases hy : 0 < y.length
    · simp [hy, hnil]
    · simp [hy]
  · unfold foldY
    have hmin : nanmin (y.filter (fun v => !v.isNan)) = nanmin y := by
      unfold nanmin
      rw [List.filter_filter]
      simp
    have hmax : nanmax (y.filter (fun v => !v.isNan)) = nanmax y := by
      unfold nanmax
      rw [List.filter_filter]
      simp
    by_cases hy : 0 < y.length
    · by_cases hf : 0 < (y.filter (fun v => !v.isNan)).length
      · simp [hy, hf, hmin, hmax]
      · have hnil : y.filter (fun v => !v.isNan) = [] := by
          cases hq : y.filter (fun v => !v.isNan) with
          | nil => rfl
          | cons c t => rw [hq] at hf; simp at hf
        have hmn : nanmin y = .nan := by
          unfold nanmin
          rw [hnil]
        have hmx : nanmax y = .nan := by
          unfold nanmax
          rw [hnil]
        rw [hnil]
        simp [hy, hmn, hmx, pymin_nan_right, pymax_nan_right]
    · have h0 : y = [] := by
        cases y with
        | nil => rfl
        | cons c t => simp at hy
      simp [h0]

/-- **C4.** If after scanning all tables the x-range is non-finite or
degenerate (xmin equal to xmax), the limit computer substitutes `(0, 1)`
for the x-range; if the y-range is non-finite or degenerate it substitutes
`(1e-3, 1)` under log scale and `(0, 1)` otherwise. -/
theorem c4_fallback_policy (datasets : List (String × DataFrame))
    (logy meanOnly rebase useIndex : Bool) :
    ((!((scanLimits datasets logy meanOnly rebase useIndex).xmin.isFinite
          && (scanLimits datasets logy meanOnly rebase useIndex).xmax.isFinite)
        || EFloat.feq (scanLimits datasets logy meanOnly rebase useIndex).xmin
            (scanLimits datasets logy meanOnly rebase useIndex).xmax) = true →
      (compute_global_limits datasets logy meanOnly rebase useIndex).xmin = .fin 0
      ∧ (compute_global_limits datasets logy meanOnly rebase useIndex).xmax = .fin 1)
    ∧ ((!((scanLimits datasets logy meanOnly rebase useIndex).ymin.isFinite
          && (scanLimits datasets logy meanOnly rebase useIndex).ymax.isFinite)
        || EFloat.feq (scanLimits datasets logy meanOnly rebase useIndex).ymin
            (scanLimits datasets logy meanOnly rebase useIndex).ymax) = true →
      (compute_global_limits datasets logy meanOnly rebase useIndex).ymin
          = (if logy then .fin (1 / 1000) else .fin 0)
      ∧ (compute_global_limits datasets logy meanOnly rebase useIndex).ymax = .fin 1) := by
  refine ⟨fun h => ?_, fun h => ?_⟩
  · have h2 : fallbackX (scanLimits datasets logy meanOnly rebase useIndex).xmin
        (scanLimits datasets logy meanOnly rebase useIndex).xmax
          = (.fin 0, .fin 1) := by
      unfold fallbackX
      rw [if_pos h]
    exact ⟨congrArg Prod.fst h2, congrArg Prod.snd h2⟩
  · have h2 : fallbackY logy (scanLimits datasets logy meanOnly rebase useIndex).ymin
        (scanLimits datasets logy meanOnly rebase useIndex).ymax
          = if logy then (.fin (1 / 1000), .fin 1) else (.fin 0, .fin 1) := by
      unfold fallbackY
      rw [if_pos h]
    cases logy
    · rw [if_neg (by simp : ¬(false = true))] at h2
      rw [if_neg (by simp : ¬(false = true))]
      exact ⟨congrArg Prod.fst h2, congrArg Prod.snd h2⟩
    · rw [if_pos rfl] at h2
      rw [if_pos rfl]
      exact ⟨congrArg Prod.fst h2, congrArg Prod.snd h2⟩

/-- Witness for C4: with no datasets at all the scan stays at
`(+inf, -inf, +inf, -inf)`, both ranges are non-finite, and the defaults
`(0, 1)` and (under log scale) `(1e-3, 1)` are substituted. -/
theorem c4_witness :
    (compute_global_limits [] true false false false).xmin = .fin 0
    ∧ (compute_global_limits [] true false false false).xmax = .fin 1
    ∧ (compute_global_limits [] true false false false).ymin = .fin (1 / 1000)
    ∧ (compute_global_limits [] true false false false).ymax = .fin 1 := by
  have h := c4_fallback_policy [] true false false false
  refine ⟨(h.1 (by rfl)).1, (h.1 (by rfl)).2, ?_, (h.2 (by rfl)).2⟩
  have h2 := (h.2 (by rfl)).1
  simpa using h2

/-- **C2.** Loading a table fails with a validation error if and only if
the required `NoOfEvals` column is absent; the error message names the
file and lists the columns actually found; and any such error aborts the
entire loading loop. -/
theorem c2_missing_column_error (path : String) (df : DataFrame)
    (files : List (String × String × DataFrame)) (e : String × String × DataFrame) :
    ((∃ msg, read_csv_clean path df = .error msg) ↔ "NoOfEvals" ∉ df.header)
    ∧ ("NoOfEvals" ∉ df.header →
        read_csv_clean path df = .error (missingColMsg path df.header))
    ∧ (e ∈ files → "NoOfEvals" ∉ e.2.2.header →
        ∃ msg, loadDatasets files = .error msg) := by
  refine ⟨⟨?_, ?_⟩, ?_, ?_⟩
  · rintro ⟨msg, hmsg⟩ hmem
    unfold read_csv_clean at hmsg
    rw [if_pos hmem] at hmsg
    cases hmsg
  · intro h
    refine ⟨missingColMsg path df.header, ?_⟩
    unfold read_csv_clean
    rw [if_neg h]
  · intro h
    unfold read_csv_clean
    rw [if_neg h]
  · intro hmem hcol
    induction files with
    | nil => cases hmem
    | cons f rest ih =>
        rcases List.mem_cons.mp hmem with rfl | hmem2
        · have herr : read_csv_clean e.2.1 e.2.2
              = .error (missingColMsg e.2.1 e.2.2.header) := by
            unfold read_csv_clean
            rw [if_neg hcol]
          exact ⟨missingColMsg e.2.1 e.2.2.header, by simp [loadDatasets, herr, Bind.bind, Except.bind]⟩
        · cases hf : read_csv_clean f.2.1 f.2.2 with
          | error m => exact ⟨m, by simp [loadDatasets, hf, Bind.bind, Except.bind]⟩
          | ok d =>
              obtain ⟨m, hm⟩ := ih hmem2
              exact ⟨m, by simp [loadDatasets, hf, hm, Bind.bind, Except.bind]⟩

/-- **C3.** For every input table, after the cleaner runs (numeric
coercion, row drop, sort, deduplicate, index reset), the `NoOfEvals`
column of the resulting table is strictly increasing: sorted ascending
with no duplicate values. -/
theorem c3_strictly_increasing (path : String) (df dfc : DataFrame)
    (h : read_csv_clean path df = .ok dfc) :
    ((getCol dfc "NoOfEvals").map Cell.toNumeric).Pairwise
      (fun a b => EFloat.lt a b = true) := by
  obtain ⟨hmem, hdfc⟩ := read_csv_clean_ok h
  subst hdfc
  simp only [getCol, List.map_map]
  rw [List.pairwise_map]
  exact cleaned_rows_pairwise _ _

/-- Witness for C3: cleaning an unsorted two-row table yields a strictly
increasing `NoOfEvals` column. -/
theorem c3_witness :
    read_csv_clean "w.csv"
        (⟨["NoOfEvals"], [[.num (.fin 3)], [.num (.fin 1)]]⟩ : DataFrame)
      = .ok (⟨["NoOfEvals"], [[.num (.fin 1)], [.num (.fin 3)]]⟩ : DataFrame)
    ∧ ((getCol (⟨["NoOfEvals"], [[.num (.fin 1)], [.num (.fin 3)]]⟩ : DataFrame)
        "NoOfEvals").map Cell.toNumeric).Pairwise (fun a b => EFloat.lt a b = true) :=
  ⟨by rfl,
    c3_strictly_increasing "w.csv"
      (⟨["NoOfEvals"], [[.num (.fin 3)], [.num (.fin 1)]]⟩ : DataFrame) _ (by rfl)⟩

/-- A table whose rows are already fixed points of the coercion, have
non-NaN strictly increasing keys, is returned unchanged by
`read_csv_clean`. -/
theorem read_csv_clean_of_fixed (path : String) (d : DataFrame)
    (hmem : "NoOfEvals" ∈ d.header)
    (hfix : ∀ r ∈ d.rows, coerceKey (d.header.indexOf "NoOfEvals") r = r)
    (hnn : ∀ r ∈ d.rows, (keyOf (d.header.indexOf "NoOfEvals") r).isNan = false)
    (hp : d.rows.Pairwise (fun r s =>
        EFloat.lt (keyOf (d.header.indexOf "NoOfEvals") r)
          (keyOf (d.header.indexOf "NoOfEvals") s) = true)) :
    read_csv_clean path d = .ok d := by
  unfold read_csv_clean
  rw [if_pos hmem]
  unfold cleanRows
  rw [map_id_of_mem hfix]
  rw [List.filter_eq_self.mpr (fun r hr => by simp [hnn r hr])]
  rw [sortRows_eq_of_chain ((hp.imp (fun h => EFloat.lt_asymm h)).chain')]
  rw [dedupKeepLast_eq_of_pairwise_lt hp]

/-- **C9.** The cleaning transformation is idempotent: re-cleaning an
already-cleaned table returns the table unchanged. -/
theorem c9_cleaning_idempotent (path path2 : String) (df dfc : DataFrame)
    (h : read_csv_clean path df = .ok dfc) :
    read_csv_clean path2 dfc = .ok dfc := by
  obtain ⟨hmem, hdfc⟩ := read_csv_clean_ok h
  subst hdfc
  refine read_csv_clean_of_fixed path2 _ hmem ?_ ?_ ?_
  · intro r hr
    have h1 : r ∈ df.rows.map (coerceKey (df.header.indexOf "NoOfEvals")) :=
      List.mem_of_mem_filter (mem_sortRows.mp (mem_dedupKeepLast hr))
    obtain ⟨r0, hr0, rfl⟩ := List.mem_map.mp h1
    exact coerceKey_idem _ r0
  · intro r hr
    simpa using List.of_mem_filter (mem_sortRows.mp (mem_dedupKeepLast hr))
  · exact cleaned_rows_pairwise _ _

/-- Witness for C9: re-cleaning the cleaned version of an unsorted table
returns it unchanged. -/
theorem c9_witness :
    read_csv_clean "w2.csv"
        (⟨["NoOfEvals"], [[.num (.fin 2)], [.num (.fin 0)]]⟩ : DataFrame)
      = .ok (⟨["NoOfEvals"], [[.num (.fin 0)], [.num (.fin 2)]]⟩ : DataFrame)
    ∧ read_csv_clean "w3.csv"
        (⟨["NoOfEvals"], [[.num (.fin 0)], [.num (.fin 2)]]⟩ : DataFrame)
      = .ok (⟨["NoOfEvals"], [[.num (.fin 0)], [.num (.fin 2)]]⟩ : DataFrame) :=
  ⟨by rfl,
    c9_cleaning_idempotent "w2.csv" "w3.csv"
      (⟨["NoOfEvals"], [[.num (.fin 2)], [.num (.fin 0)]]⟩ : DataFrame) _ (by rfl)⟩

/-- **C10.** For every list of (label, table) datasets and every flag
combination, `compute_global_limits` returns four finite values with
`xmin < xmax` and `ymin < ymax` — even when input values include
infinities or no drawable series exists. -/
theorem c10_limits_wellformed (datasets : List (String × DataFrame))
    (logy meanOnly rebase useIndex : Bool) :
    (compute_global_limits datasets logy meanOnly rebase useIndex).xmin.isFinite = true
    ∧ (compute_global_limits datasets logy meanOnly rebase useIndex).xmax.isFinite = true
    ∧ (compute_global_limits datasets logy meanOnly rebase useIndex).ymin.isFinite = true
    ∧ (compute_global_limits datasets logy meanOnly rebase useIndex).ymax.isFinite = true
    ∧ EFloat.lt (compute_global_limits datasets logy meanOnly rebase useIndex).xmin
        (compute_global_limits datasets logy meanOnly rebase useIndex).xmax = true
    ∧ EFloat.lt (compute_global_limits datasets logy meanOnly rebase useIndex).ymin
        (compute_global_limits datasets logy meanOnly rebase useIndex).ymax = true := by
  obtain ⟨hx, hy, _⟩ := scanLimits_limOK datasets logy meanOnly rebase useIndex
  obtain ⟨hx1, hx2, hx3⟩ := fallbackX_ok hx
  obtain ⟨hy1, hy2, hy3⟩ := fallbackY_ok logy hy
  exact ⟨hx1, hx2, hy1, hy2, hx3, hy3⟩

/-- **C1 counterexample.** The claim "every (x, y) point drawn by the
renderer lies within the shared limits returned by the limit computer"
fails when the fallback substitution replaces a degenerate range: a single
table with a single row `NoOfEvals = 0`, `Trial1 = 5` under log scale has
a degenerate scan (`ymin = ymax = 5`, `xmin = xmax = 0`), so the limits
fall back to `(0, 1) × (1e-3, 1)` — but the rendered trial point
`(0, 5)` has `y = 5 > ymax = 1` (the clamp does not fire). -/
theorem c1_counterexample :
    read_csv_clean "a.csv"
        (⟨["NoOfEvals", "Trial1"], [[.num (.fin 0), .num (.fin 5)]]⟩ : DataFrame)
      = .ok (⟨["NoOfEvals", "Trial1"], [[.num (.fin 0), .num (.fin 5)]]⟩ : DataFrame)
    ∧ (EFloat.fin 0, EFloat.fin 5) ∈
        renderedPoints (⟨["NoOfEvals", "Trial1"],
          [[.num (.fin 0), .num (.fin 5)]]⟩ : DataFrame) false false false false true
    ∧ compute_global_limits
        [("A", (⟨["NoOfEvals", "Trial1"],
          [[.num (.fin 0), .num (.fin 5)]]⟩ : DataFrame))] true false false false
        = ⟨.fin 0, .fin 1, .fin (1 / 1000), .fin 1⟩
    ∧ clampYmin true (compute_global_limits
        [("A", (⟨["NoOfEvals", "Trial1"],
          [[.num (.fin 0), .num (.fin 5)]]⟩ : DataFrame))] true false false false).ymin
        = (compute_global_limits
        [("A", (⟨["NoOfEvals", "Trial1"],
          [[.num (.fin 0), .num (.fin 5)]]⟩ : DataFrame))] true false false false).ymin
    ∧ EFloat.le (.fin 5) (compute_global_limits
        [("A", (⟨["NoOfEvals", "Trial1"],
          [[.num (.fin 0), .num (.fin 5)]]⟩ : DataFrame))] true false false false).ymax
        = false := by
  refine ⟨by rfl, by decide, by rfl, ?_, by rfl⟩
  apply clampYmin_id
  intro hl
  have h3 : (compute_global_limits
      [("A", (⟨["NoOfEvals", "Trial1"],
        [[.num (.fin 0), .num (.fin 5)]]⟩ : DataFrame))] true false false false).ymin
      = .fin (1 / 1000) := by rfl
  rw [h3]
  simp only [EFloat.lt, decide_eq_true_eq]
  norm_num

/-- **C1 (amended).** Every point actually rendered (finite coordinates,
and strictly positive y under log scale) of a chart whose table is among
the scanned datasets lies within the computed shared limits (with the
renderer's ymin clamp applied), provided the corresponding scanned range
was finite and non-degenerate (otherwise the fallback default range
replaces it and need not contain the data, see the counterexample), and
provided mean curves are not drawn alongside trial curves (show-mean
without mean-only draws a mean curve that is excluded from the scan by
design). -/
theorem c1_limits_contain_rendered_amended
    (datasets : List (String × DataFrame)) (label : String) (df : DataFrame)
    (logy meanOnly showMean rebase useIndex : Bool)
    (hmem : (label, df) ∈ datasets)
    (hsm : showMean = true → meanOnly = true)
    (p : EFloat × EFloat)
    (hp : p ∈ renderedPoints df meanOnly showMean rebase useIndex logy) :
    (((scanLimits datasets logy meanOnly rebase useIndex).xmin.isFinite = true
      ∧ (scanLimits datasets logy meanOnly rebase useIndex).xmax.isFinite = true
      ∧ EFloat.feq (scanLimits datasets logy meanOnly rebase useIndex).xmin
          (scanLimits datasets logy meanOnly rebase useIndex).xmax = false) →
      EFloat.le (compute_global_limits datasets logy meanOnly rebase useIndex).xmin
          p.1 = true
      ∧ EFloat.le p.1
          (compute_global_limits datasets logy meanOnly rebase useIndex).xmax = true)
    ∧ (((scanLimits datasets logy meanOnly rebase useIndex).ymin.isFinite = true
      ∧ (scanLimits datasets logy meanOnly rebase useIndex).ymax.isFinite = true
      ∧ EFloat.feq (scanLimits datasets logy meanOnly rebase useIndex).ymin
          (scanLimits datasets logy meanOnly rebase useIndex).ymax = false) →
      EFloat.le (clampYmin logy
          (compute_global_limits datasets logy meanOnly rebase useIndex).ymin)
          p.2 = true
      ∧ EFloat.le p.2
          (compute_global_limits datasets logy meanOnly rebase useIndex).ymax = true) := by
  have hcov := scanLimits_covers hmem hsm hp
  constructor
  · rintro ⟨hf1, hf2, hne⟩
    have hid := fallbackX_id hf1 hf2 hne
    constructor
    · show EFloat.le (fallbackX (scanLimits datasets logy meanOnly rebase useIndex).xmin
          (scanLimits datasets logy meanOnly rebase useIndex).xmax).1 p.1 = true
      rw [hid]
      exact hcov.1
    · show EFloat.le p.1 (fallbackX (scanLimits datasets logy meanOnly rebase useIndex).xmin
          (scanLimits datasets logy meanOnly rebase useIndex).xmax).2 = true
      rw [hid]
      exact hcov.2.1
  · rintro ⟨hf1, hf2, hne⟩
    have hid := fallbackY_id logy hf1 hf2 hne
    have hymin : (compute_global_limits datasets logy meanOnly rebase useIndex).ymin
        = (scanLimits datasets logy meanOnly rebase useIndex).ymin := by
      show (fallbackY logy (scanLimits datasets logy meanOnly rebase useIndex).ymin
        (scanLimits datasets logy meanOnly rebase useIndex).ymax).1 = _
      rw [hid]
    have hclamp : clampYmin logy
        (compute_global_limits datasets logy meanOnly rebase useIndex).ymin
        = (scanLimits datasets logy meanOnly rebase useIndex).ymin := by
      rw [hymin]
      apply clampYmin_id
      intro hl
      obtain ⟨_, _, hpos3⟩ := scanLimits_limOK datasets logy meanOnly rebase useIndex
      rcases hpos3 hl with hinf | hposv
      · rw [hinf] at hf1
        cases hf1
      · exact hposv
    constructor
    · rw [hclamp]
      exact hcov.2.2.1
    · show EFloat.le p.2 (fallbackY logy
          (scanLimits datasets logy meanOnly rebase useIndex).ymin
          (scanLimits datasets logy meanOnly rebase useIndex).ymax).2 = true
      rw [hid]
      exact hcov.2.2.2

/-- Witness for C1 (amended): a two-row single-trial table under log
scale with non-degenerate ranges; the rendered point `(0, 2)` lies within
the computed limits. -/
theorem c1_witness :
    (EFloat.le (compute_global_limits
        [("A", (⟨["NoOfEvals", "T"],
          [[.num (.fin 0), .num (.fin 2)], [.num (.fin 10), .num (.fin 4)]]⟩ : DataFrame))]
        true false false false).xmin (.fin 0) = true
      ∧ EFloat.le (.fin 0) (compute_global_limits
        [("A", (⟨["NoOfEvals", "T"],
          [[.num (.fin 0), .num (.fin 2)], [.num (.fin 10), .num (.fin 4)]]⟩ : DataFrame))]
        true false false false).xmax = true)
    ∧ (EFloat.le (clampYmin true (compute_global_limits
        [("A", (⟨["NoOfEvals", "T"],
          [[.num (.fin 0), .num (.fin 2)], [.num (.fin 10), .num (.fin 4)]]⟩ : DataFrame))]
        true false false false).ymin) (.fin 2) = true
      ∧ EFloat.le (.fin 2) (compute_global_limits
        [("A", (⟨["NoOfEvals", "T"],
          [[.num (.fin 0), .num (.fin 2)], [.num (.fin 10), .num (.fin 4)]]⟩ : DataFrame))]
        true false false false).ymax = true) := by
  have h := c1_limits_contain_rendered_amended
    [("A", (⟨["NoOfEvals", "T"],
      [[.num (.fin 0), .num (.fin 2)], [.num (.fin 10), .num (.fin 4)]]⟩ : DataFrame))]
    "A" (⟨["NoOfEvals", "T"],
      [[.num (.fin 0), .num (.fin 2)], [.num (.fin 10), .num (.fin 4)]]⟩ : DataFrame)
    true false false false false (by simp) (fun hh => hh)
    (.fin 0, .fin 2) (by decide)
  exact ⟨h.1 ⟨by rfl, by rfl, by rfl⟩, h.2 ⟨by rfl, by rfl, by rfl⟩⟩

/-- **C7 counterexample.** The claim "when rebase is enabled and the
extracted series is non-empty, the first x value equals 0" fails on a
(cleaned) table whose first retained evaluation count is infinite: the
rebase subtraction `inf - inf` yields NaN, not 0. -/
theorem c7_counterexample :
    read_csv_clean "inf.csv"
        (⟨["NoOfEvals", "T"], [[.num .inf, .num (.fin 1)]]⟩ : DataFrame)
      = .ok (⟨["NoOfEvals", "T"], [[.num .inf, .num (.fin 1)]]⟩ : DataFrame)
    ∧ (per_trial_xy (⟨["NoOfEvals", "T"], [[.num .inf, .num (.fin 1)]]⟩ : DataFrame)
        "T" true false).1 = [.nan]
    ∧ EFloat.nan ≠ EFloat.fin 0 :=
  ⟨by rfl, by rfl, by decide⟩

/-- The rebased branch of `per_trial_xy`, expressed via the raw (non
rebased, non indexed) x series. -/
theorem per_trial_xy_fst_rebase (df : DataFrame) (col : String) :
    (per_trial_xy df col true false).1
      = (per_trial_xy df col false false).1.map
          (fun (v : EFloat) =>
            EFloat.sub v ((per_trial_xy df col false false).1.headD .nan)) := by
  show (match (per_trial_xy df col false false).1 with
        | [] => ([] : List EFloat)
        | h :: _ =>
            (per_trial_xy df col false false).1.map
              (fun (v : EFloat) => EFloat.sub v h)) = _
  cases hxs : (per_trial_xy df col false false).1 with
  | nil => simp
  | cons x0 t => simp

/-- `((List.range n).map (fin ∘ cast)).headD` is `fin 0` when `n > 0`. -/
theorem headD_range_map {n : ℕ} (hn : n ≠ 0) :
    (((List.range n).map (fun (k : ℕ) => EFloat.fin (k : ℚ))).headD .nan)
      = .fin 0 := by
  cases n with
  | zero => exact absurd rfl hn
  | succ m =>
      rw [List.range_succ_eq_map]
      simp

/-- **C7 (amended).** When rebase is enabled and the extracted series is
non-empty, and additionally either x is the row index (`useIndex`) or the
first retained evaluation-count value is finite, the first x value of the
extracted series equals 0.  (Without the finiteness proviso the claim
fails: an infinite first evaluation count rebases to `inf - inf = NaN`,
see the counterexample.) -/
theorem c7_rebase_first_zero_amended (df : DataFrame) (col : String)
    (rebase useIndex : Bool)
    (hreb : rebase = true)
    (hne : (per_trial_xy df col rebase useIndex).1 ≠ [])
    (hfin : useIndex = true
      ∨ ((per_trial_xy df col false false).1.headD .nan).isFinite = true) :
    (per_trial_xy df col rebase useIndex).1.headD .nan = .fin 0 := by
  subst hreb
  by_cases hui : useIndex = true
  · subst hui
    simp only [per_trial_xy, if_pos rfl] at hne ⊢
    refine headD_range_map ?_
    intro h0
    exact hne (by rw [h0]; rfl)
  · have hui2 : useIndex = false := by simpa using hui
    subst hui2
    rcases hfin with h | h
    · exact absurd h (by simp)
    · rw [per_trial_xy_fst_rebase] at hne ⊢
      cases hxs : (per_trial_xy df col false false).1 with
      | nil => rw [hxs] at hne; simp at hne
      | cons x0 t =>
          rw [hxs] at h
          simp only [List.headD_cons, List.map_cons] at h ⊢
          cases x0 with
          | fin q => simp [EFloat.sub]
          | nan => simp [EFloat.isFinite] at h
          | inf => simp [EFloat.isFinite] at h
          | ninf => simp [EFloat.isFinite] at h

/-- Witness for C7 (amended): a finite two-row table with rebase enabled
starts its x axis at 0. -/
theorem c7_witness :
    (per_trial_xy (⟨["NoOfEvals", "T"],
        [[.num (.fin 5), .num (.fin 7)], [.num (.fin 9), .num (.fin 8)]]⟩ : DataFrame)
      "T" true false).1.headD .nan = .fin 0 :=
  c7_rebase_first_zero_amended
    (⟨["NoOfEvals", "T"],
      [[.num (.fin 5), .num (.fin 7)], [.num (.fin 9), .num (.fin 8)]]⟩ : DataFrame)
    "T" true false rfl (by decide) (Or.inr (by rfl))

/-- Witness for C2: a one-column table without `NoOfEvals` is rejected
with the expected message, and its presence in the file list aborts the
whole load. -/
theorem c2_witness :
    (∃ msg, read_csv_clean "f.csv" (⟨["A"], []⟩ : DataFrame) = .error msg)
    ∧ read_csv_clean "f.csv" (⟨["A"], []⟩ : DataFrame)
        = .error (missingColMsg "f.csv" ["A"])
    ∧ ∃ msg, loadDatasets [("L", "f.csv", (⟨["A"], []⟩ : DataFrame))] = .error msg := by
  have h := c2_missing_column_error "f.csv" (⟨["A"], []⟩ : DataFrame)
      [("L", "f.csv", (⟨["A"], []⟩ : DataFrame))] ("L", "f.csv", (⟨["A"], []⟩ : DataFrame))
  have hnot : "NoOfEvals" ∉ (⟨["A"], []⟩ : DataFrame).header := by simp
  exact ⟨h.1.mpr hnot, h.2.1 hnot, h.2.2 (by simp) hnot⟩

end Visualize
